import Mathlib

/-!
Verification development for the korektor corpus pipeline.

This file gives a shallow embedding of the corpus ingestion / aggregation /
index-construction pipeline (`src/corpus/index_builder.py` and
`src/build_examples_stream.py`) and proves the specified properties about it.

Python dicts are modelled as association lists in insertion order with unique
keys; Python sets of sentence ids are modelled as duplicate-free lists in
insertion order; `collections.Counter` is an association list of (key, count)
in first-insertion order.  Machine-level details (SQLite file format, real
randomness) are modelled by explicit state passing and an explicit shuffle
parameter.
-/

namespace Korektor

/-! Python string helpers.  `pyStrip` models `str.strip()` (whitespace on both
ends); the title/sentence strings appearing in the claims only use ASCII
whitespace, which this set covers. -/

def pyWhitespace (c : Char) : Bool :=
  c == ' ' || c == '\t' || c == '\n' || c == '\r' || c == '\x0b' || c == '\x0c'

def pyStrip (s : String) : String :=
  ⟨((s.data.dropWhile pyWhitespace).reverse.dropWhile pyWhitespace).reverse⟩

/-! Association-list model of a Python dict: lookup, and update-or-append
(matching dict insertion-order semantics). -/

def alistGet {α : Type} (d : List (String × α)) (k : String) : Option α :=
  match d with
  | [] => none
  | p :: t => if p.1 = k then some p.2 else alistGet t k

/-- `d[k] = v`: replace the value at the first entry for `k` (dicts carry at
most one entry per key), or append a fresh entry in insertion order. -/
def alistSet {α : Type} (d : List (String × α)) (k : String) (v : α) :
    List (String × α) :=
  match d with
  | [] => [(k, v)]
  | p :: t => if p.1 = k then (k, v) :: t else p :: alistSet t k v

def alistKeys {α : Type} (d : List (String × α)) : List String := d.map (·.1)

/-- `collections.Counter` increment: `c[k] += 1` (a missing key counts as 0,
and a fresh key is appended in insertion order). -/
def counterAdd (c : List (String × Nat)) (k : String) : List (String × Nat) :=
  match alistGet c k with
  | some n => alistSet c k (n + 1)
  | none => c ++ [(k, 1)]

/-! The Morphology Aggregator (`process_morphology_data` in
`src/corpus/index_builder.py`). -/

/-- One parsed morphology token record (the fields `data['form']`,
`data['lemma']`, `data['upos']`, `data['feats']`, `data['sentence_id']` read
from one JSONL line).  `lemma'` stands for the `lemma` field. -/
structure MorphToken where
  form : String
  lemma' : String
  upos : String
  feats : String
  sentence_id : String
deriving DecidableEq, Repr

/-- Per-wordform aggregate state: the defaultdict value
`{'lemma': None, 'upos': None, 'feats_counter': Counter(), 'frequency': 0,
'sentence_ids': set()}`. -/
structure WFRec where
  lemma' : Option String
  upos : Option String
  feats_counter : List (String × Nat)
  frequency : Nat
  sentence_ids : List String
deriving DecidableEq, Repr

def WFRec.init : WFRec := ⟨none, none, [], 0, []⟩

/-- The wordform map `wordforms : defaultdict`. -/
abbrev WFMap := List (String × WFRec)

/-- The token-level mutation of one wordform record (lines 63-82 of
`index_builder.py`), written as one record update:
`if wf['lemma'] is None:` fixes lemma and upos together;
`if feats:` picks the feats bucket (the `''` bucket for an empty string);
`wf['frequency'] += 1` is unconditional; the sentence id is added to the set
only while it holds fewer than 10 ids. -/
def updateRec (cur : Option WFRec) (t : MorphToken) : WFRec :=
  let wf := cur.getD WFRec.init
  { lemma' := if wf.lemma' = none then some t.lemma' else wf.lemma'
    upos := if wf.lemma' = none then some t.upos else wf.upos
    feats_counter :=
      (if t.feats ≠ "" then counterAdd wf.feats_counter t.feats
       else counterAdd wf.feats_counter "")
    frequency := wf.frequency + 1
    sentence_ids :=
      (if wf.sentence_ids.length < 10 then
        (if t.sentence_id ∈ wf.sentence_ids then wf.sentence_ids
         else wf.sentence_ids ++ [t.sentence_id])
       else wf.sentence_ids) }

/-- Processing of one well-formed token inside the loop body of
`process_morphology_data` (lines 53-82 of `index_builder.py`):
`if not form.strip(): continue`, then `wf = wordforms[form]` (a defaultdict:
the default record when absent) is mutated in place. -/
def processToken (m : WFMap) (t : MorphToken) : WFMap :=
  if pyStrip t.form == "" then m
  else alistSet m t.form (updateRec (alistGet m t.form) t)

/-- Aggregation over a stream of already-parsed tokens. -/
def processTokens (ts : List MorphToken) : WFMap := ts.foldl processToken []

/-- A parsed JSON object from one morphology line; `none` fields model JSON
objects missing that key (reading such a field raises `KeyError`, which the
loop does not catch). -/
structure MorphObj where
  form : Option String
  lemma' : Option String
  upos : Option String
  feats : Option String
  sentence_id : Option String
deriving DecidableEq, Repr

/-- One physical line of the morphology stream as the loop classifies it:
blank (`if line.strip():` fails), undecodable JSON (`json.JSONDecodeError`),
or a decoded JSON object. -/
inductive MorphLine where
  | blank
  | badJson
  | obj (o : MorphObj)
deriving DecidableEq, Repr

/-- Field extraction `data['form']` … `data['sentence_id']`: any missing key
raises `KeyError`. -/
def lineToken (o : MorphObj) : Except String MorphToken :=
  match o.form, o.lemma', o.upos, o.feats, o.sentence_id with
  | some f, some l, some u, some ft, some sid => .ok ⟨f, l, u, ft, sid⟩
  | _, _, _, _, _ => .error "KeyError"

/-- The loop body of `process_morphology_data` on one line: blank lines are
skipped, `json.JSONDecodeError` is caught (warning printed) and the loop
continues, but a `KeyError` from a decoded object propagates and aborts. -/
def processLine (m : WFMap) (l : MorphLine) : Except String WFMap :=
  match l with
  | .blank => .ok m
  | .badJson => .ok m
  | .obj o => (lineToken o).map (processToken m)

/-- `process_morphology_data` over the whole line stream: an uncaught
exception aborts the run (`Except.error`). -/
def process_morphology_data (ls : List MorphLine) : Except String WFMap :=
  ls.foldlM processLine []

/-! The Example Selector (`select_example_sentences` in
`src/corpus/index_builder.py`).  `random.shuffle` is modelled by an explicit
`shuffle` parameter; the Python set `sentence_ids` is modelled as its
insertion-order list.  The Sentence Store is a lookup function
(`sid in sentences` / `sentences[sid]`). -/

/-- Substring test: `'http' in text`. -/
def containsSub (needle haystack : List Char) : Bool :=
  haystack.tails.any (fun t => needle.isPrefixOf t)

/-- The quality filter of line 104:
`len(text) > 10 and not text.startswith('=') and 'http' not in text`. -/
def goodSentence (text : String) : Bool :=
  text.length > 10 && !(text.startsWith "=") && !(containsSub "http".data text.data)

/-- The fill loop of lines 133-134:
`while len(selected) < max_examples and remaining: selected.append(remaining.pop())`
(`pop()` removes from the end of the shuffled list). -/
def fillSelected (max_examples : Nat) (selected remaining : List String) :
    List String :=
  if h : selected.length < max_examples ∧ remaining ≠ [] then
    fillSelected max_examples (selected ++ [remaining.getLast h.2])
      remaining.dropLast
  else selected
termination_by remaining.length
decreasing_by
  simp only [List.length_dropLast]
  have hn : remaining.length ≠ 0 := fun h0 => h.2 (List.length_eq_zero.mp h0)
  omega

/-- The filtered pool (lines 100-105):
`for sid in sentence_ids: if sid in sentences: text = sentences[sid].strip();
if <good>: available_sentences.append(text)`. -/
def availableSentences (sentence_ids : List String)
    (sentences : String → Option String) : List String :=
  sentence_ids.filterMap (fun sid =>
    match sentences sid with
    | some text => if goodSentence (pyStrip text) then some (pyStrip text) else none
    | none => none)

/-- The fallback of lines 107-112: the first resolvable sentence id, filters
ignored (`break` after the first append). -/
def fallbackSentences (sentence_ids : List String)
    (sentences : String → Option String) : List String :=
  match sentence_ids.find? (fun sid => (sentences sid).isSome) with
  | some sid => [pyStrip ((sentences sid).getD "")]
  | none => []

/-- The diversity branch of lines 118-136: first, last, middle element, then
random fill from the shuffled remainder, truncated to `max_examples`. -/
def diversitySelect (shuffle : List String → List String)
    (available : List String) (max_examples : Nat) : List String :=
  let selected := [available.headI]
  let selected := if available.length > 1 then selected ++ [available.getLastI]
    else selected
  let selected := if available.length > 2 then
      selected ++ [available.getI (available.length / 2)]
    else selected
  let remaining := available.filter (fun s => !(selected.contains s))
  (fillSelected max_examples selected (shuffle remaining)).take max_examples

/-- `select_example_sentences(sentence_ids, sentences, max_examples=5)`. -/
def select_example_sentences (shuffle : List String → List String)
    (sentence_ids : List String) (sentences : String → Option String)
    (max_examples : Nat) : List String :=
  let available := availableSentences sentence_ids sentences
  -- `if not available_sentences:` fallback
  let available := if available = [] then fallbackSentences sentence_ids sentences
    else available
  -- `if len(available_sentences) <= max_examples: return available_sentences`
  if available.length ≤ max_examples then available
  else diversitySelect shuffle available max_examples

/-! The Index Builder (`create_sqlite_database` in
`src/corpus/index_builder.py`).  The store (the SQLite file at `db_file`) is
modelled as `Option (List IndexRow)`: `none` = no file on disk. -/

/-- One row of the `wordforms` table. -/
structure IndexRow where
  wordform : String
  lemma' : String
  upos : String
  feats : String
  frequency : Nat
  sentences : List String
deriving DecidableEq, Repr

/-- `Counter.most_common(1)` = `heapq.nlargest(1, items, key=count)`: the
first item in insertion order among those with maximal count.  Modelled as a
left fold keeping the current best, replaced only on a strictly larger
count. -/
def mostCommon1 (c : List (String × Nat)) : Option (String × Nat) :=
  c.foldl (fun best p =>
    match best with
    | none => some p
    | some b => if p.2 > b.2 then some p else some b) none

/-- The step of `mostCommon1` on an already-populated accumulator. -/
def pickBest (b p : String × Nat) : String × Nat := if p.2 > b.2 then p else b

/-- Line 178: `data['feats_counter'].most_common(1)[0][0] if data['feats_counter'] else ''`. -/
def mostCommonFeats (c : List (String × Nat)) : String :=
  match mostCommon1 c with
  | some p => p.1
  | none => ""

/-- Preparation of one insert tuple (lines 176-197): most-frequent feats,
example selection, and the synthetic placeholder when the selector returns an
empty list.  `lemma'`/`upos` of an aggregated record are always set (the
aggregator fixes them when the record is created), so `getD ""` is never
exercised on pipeline-produced records. -/
def buildRow (shuffle : List String → List String)
    (sentences : String → Option String) (wordform : String) (data : WFRec) :
    IndexRow :=
  let most_common_feats := mostCommonFeats data.feats_counter
  let example_sentences :=
    select_example_sentences shuffle data.sentence_ids sentences 5
  let example_sentences := if example_sentences = [] then
      ["Пример с '" ++ wordform ++ "' недоступен."]
    else example_sentences
  ⟨wordform, data.lemma'.getD "", data.upos.getD "", most_common_feats,
    data.frequency, example_sentences⟩

/-- The summary statistics object built by `create_sqlite_database`. -/
structure IndexStats where
  total_wordforms : Nat
  pos_distribution : List (String × Nat)
  total_examples : Nat
  feats_coverage : List String
  avg_examples_per_wordform : ℚ
  unique_feats_count : Nat
deriving DecidableEq, Repr

/-- The tail of the build after inserts succeed: rows are committed, index
creation / VACUUM / ANALYZE do not change the rows, then the statistics are
finalised — `stats['total_examples'] / stats['total_wordforms']` raises
`ZeroDivisionError` when no wordform was aggregated. -/
def finishBuild (insert_data : List IndexRow) :
    Option (List IndexRow) × Except String IndexStats :=
  let fs := some insert_data
  let total_wordforms := insert_data.length
  let pos_distribution := insert_data.foldl (fun c row => counterAdd c row.upos) []
  let total_examples := (insert_data.map (fun row => row.sentences.length)).sum
  let feats_coverage := insert_data.foldl (fun s row =>
      if row.feats ≠ "" ∧ row.feats ∉ s then s ++ [row.feats] else s) []
  if total_wordforms = 0 then (fs, .error "ZeroDivisionError")
  else
    (fs, .ok ⟨total_wordforms, pos_distribution, total_examples, feats_coverage,
      (total_examples : ℚ) / (total_wordforms : ℚ), feats_coverage.length⟩)

/-- `create_sqlite_database` as a state transition on the store file.
`failAfter = some n` simulates a failure once `n` of the rows have been
inserted inside the transaction (e.g. disk full): the transaction is never
committed, so the store on disk is the freshly created empty table — the
previous store was already removed at the start (lines 143-144) and the
`CREATE TABLE` was auto-committed before `BEGIN TRANSACTION`. -/
def create_sqlite_database_run (_fs₀ : Option (List IndexRow))
    (shuffle : List String → List String) (sentences : String → Option String)
    (wordforms_data : WFMap) (failAfter : Option Nat) :
    Option (List IndexRow) × Except String IndexStats :=
  -- `if os.path.exists(db_file): os.remove(db_file)`; then `sqlite3.connect`
  -- plus `CREATE TABLE` leave an empty store on disk, whatever `fs₀` was
  let insert_data := wordforms_data.map (fun p => buildRow shuffle sentences p.1 p.2)
  match failAfter with
  | some n =>
      if n < insert_data.length then
        (some [], .error "sqlite3.OperationalError")
      else finishBuild insert_data
  | none => finishBuild insert_data

/-! The Merge/Dedup Engine (`merge_and_clean` in
`src/build_examples_stream.py`), value-level model.  The in-place aliasing
effect of the shallow `existing_dict.copy()` is modelled separately below
with an explicit heap. -/

/-- A wordform → examples dict. -/
abbrev ExDict := List (String × List String)

/-- The inner loop of `merge_and_clean` for one source dict `d`:
`if word not in merged: merged[word] = []` followed by
`merged[word].extend(lines)`. -/
def mergeSource (merged : ExDict) (d : ExDict) : ExDict :=
  d.foldl (fun acc p => alistSet acc p.1 ((alistGet acc p.1).getD [] ++ p.2)) merged

/-- `list(dict.fromkeys(lines))`: insert each line as a dict key in order,
skipping lines already seen — first-occurrence deduplication, order
preserved. -/
def uniqueFirst (lines : List String) : List String :=
  lines.foldl (fun acc x => if x ∈ acc then acc else acc ++ [x]) []

/-- The cleaning loop of `merge_and_clean` (lines 159-163): per key,
deduplicate and truncate to 1 example. -/
def cleanDict (merged : ExDict) : ExDict :=
  merged.map (fun p => (p.1, (uniqueFirst p.2).take 1))

/-- `merge_and_clean(existing_dict, new_dicts)` (value level). -/
def merge_and_clean (existing_dict : ExDict) (new_dicts : List ExDict) : ExDict :=
  cleanDict (new_dicts.foldl mergeSource existing_dict)

/-! Heap-level model of `merge_and_clean` exposing the aliasing introduced by
`merged = existing_dict.copy()` (a shallow copy: the example *lists* are
shared with the caller's dict).  A list value lives in a heap cell addressed
by a `Nat` reference; a dict maps words to references. -/

abbrev Heap := List (List String)

abbrev RefDict := List (String × Nat)

def heapGet (h : Heap) (r : Nat) : List String := h.getD r []

structure MergeState where
  heap : Heap
  merged : RefDict

/-- One iteration of the inner merge loop on the heap: for an already present
word, `merged[word].extend(lines)` mutates the shared cell in place; for a
fresh word, `merged[word] = []` allocates a new cell which `extend` then
fills with a copy of the source lines. -/
def mergeEntryH (st : MergeState) (p : String × Nat) : MergeState :=
  match alistGet st.merged p.1 with
  | some r =>
      { st with heap := st.heap.set r (heapGet st.heap r ++ heapGet st.heap p.2) }
  | none =>
      { heap := st.heap ++ [heapGet st.heap p.2],
        merged := st.merged ++ [(p.1, st.heap.length)] }

def mergeSourceH (st : MergeState) (d : RefDict) : MergeState :=
  d.foldl mergeEntryH st

/-- The merge loop of `merge_and_clean` on the heap.  `merged` starts as
`existing_dict.copy()` — the same words mapped to the *same* references.
(The subsequent cleaning loop builds a fresh dict with fresh cells and never
writes through the shared references, so the merge loop is where the caller's
lists get mutated.) -/
def merge_and_clean_heap (h : Heap) (existing_dict : RefDict)
    (new_dicts : List RefDict) : MergeState :=
  new_dicts.foldl mergeSourceH ⟨h, existing_dict⟩

/-- Invariant of the heap-level merge loop, relative to the original heap
`h₀`, the caller's dict `ex`, and a tracked key `k` with reference `r` in
`ex`: the heap only grows; cells not referenced by `ex` keep their original
contents; the accumulator maps words either to their `ex` reference or to a
freshly allocated one; `k` still maps to `r`; and the cell at `r` — the
caller's list — holds its original contents extended by `acc`. -/
abbrev HeapInv (h₀ : Heap) (ex : RefDict) (k : String) (r : Nat)
    (st : MergeState) (acc : List String) : Prop :=
  h₀.length ≤ st.heap.length ∧
  (∀ n, n < h₀.length → (∀ q ∈ ex, n ≠ q.2) →
    heapGet st.heap n = heapGet h₀ n) ∧
  (∀ w rw, alistGet st.merged w = some rw →
    (alistGet ex w = some rw ∨ h₀.length ≤ rw)) ∧
  alistGet st.merged k = some r ∧
  heapGet st.heap r = heapGet h₀ r ++ acc

/-! The Candidate Extractor key filter (`WikiHandler.process_page`, lines
84-99 of `src/build_examples_stream.py`).  Titles are handled as `List Char`
(Python code points). -/

/-- `str.strip()` on a code-point list. -/
def stripChars (l : List Char) : List Char :=
  ((l.dropWhile pyWhitespace).reverse.dropWhile pyWhitespace).reverse

/-- The character class of the regex
`[A-Za-zÀ-žÁáÄäČčĎďÉéÍíĹĺĽľŇňÓóÔôŔŕŘřŠšŤťÚúÝýŽž]`: every explicitly listed
diacritic letter lies in the range À..ž (U+00C0–U+017E), so the class is
exactly ASCII letters plus that range. -/
def isAlphabetChar (c : Char) : Bool :=
  (0x41 ≤ c.toNat && c.toNat ≤ 0x5A) || (0x61 ≤ c.toNat && c.toNat ≤ 0x7A) ||
  (0xC0 ≤ c.toNat && c.toNat ≤ 0x17E)

/-- `str.lower()` per code point, faithful to CPython on the code points of
the alphabet class above (ASCII letters and U+00C0–U+017E); `İ` (U+0130)
lowercases to the two code points `i` + combining dot above.  Other code
points are left unchanged (lowering is only ever applied to keys that matched
the class). -/
def pyCharLower (c : Char) : List Char :=
  let n := c.toNat
  if 0x41 ≤ n ∧ n ≤ 0x5A then [Char.ofNat (n + 32)]
  else if 0xC0 ≤ n ∧ n ≤ 0xDE ∧ n ≠ 0xD7 then [Char.ofNat (n + 32)]
  else if n = 0x130 then [Char.ofNat 0x69, Char.ofNat 0x307]
  else if 0x100 ≤ n ∧ n ≤ 0x137 ∧ n % 2 = 0 then [Char.ofNat (n + 1)]
  else if 0x139 ≤ n ∧ n ≤ 0x148 ∧ n % 2 = 1 then [Char.ofNat (n + 1)]
  else if 0x14A ≤ n ∧ n ≤ 0x177 ∧ n % 2 = 0 then [Char.ofNat (n + 1)]
  else if n = 0x178 then [Char.ofNat 0xFF]
  else if n = 0x179 ∨ n = 0x17B ∨ n = 0x17D then [Char.ofNat (n + 1)]
  else [c]

def pyLower (s : List Char) : List Char := s.flatMap pyCharLower

/-- The key-filtering prefix of `process_page`: strip the title, reject keys
containing `':'`, `' '` or a digit, reject keys failing the
alphabet/length-2-30 regex, and lower-case the survivor.  (`Char.isDigit`
covers ASCII digits; titles with only non-ASCII digits are rejected by the
alphabet check either way, so the acceptance function is unchanged.) -/
def candidateKey (title : List Char) : Option (List Char) :=
  let key := stripChars title
  if key.contains ':' || key.contains ' ' || key.any Char.isDigit then none
  else if !(key.all isAlphabetChar && 2 ≤ key.length && key.length ≤ 30) then none
  else some (pyLower key)

/-! Association-list dict lemmas. -/

theorem alistGet_cons {α : Type} (p : String × α) (t : List (String × α)) (k : String) :
    alistGet (p :: t) k = if p.1 = k then some p.2 else alistGet t k := rfl

theorem alistSet_cons {α : Type} (p : String × α) (t : List (String × α)) (k : String)
    (v : α) : alistSet (p :: t) k v = if p.1 = k then (k, v) :: t else p :: alistSet t k v :=
  rfl

theorem alistGet_set_self {α : Type} (d : List (String × α)) (k : String) (v : α) :
    alistGet (alistSet d k v) k = some v := by
  induction d with
  | nil => simp [alistSet, alistGet]
  | cons p t ih =>
    rw [alistSet_cons]
    by_cases hp : p.1 = k
    · rw [if_pos hp, alistGet_cons, if_pos rfl]
    · rw [if_neg hp, alistGet_cons, if_neg hp]
      exact ih

theorem alistGet_set_ne {α : Type} (d : List (String × α)) (k k' : String) (v : α)
    (h : k' ≠ k) : alistGet (alistSet d k v) k' = alistGet d k' := by
  induction d with
  | nil =>
    simp only [alistSet]
    rw [alistGet_cons, if_neg (fun he : k = k' => h he.symm)]
  | cons p t ih =>
    rw [alistSet_cons]
    by_cases hp : p.1 = k
    · rw [if_pos hp, alistGet_cons, alistGet_cons,
        if_neg (fun he : k = k' => h he.symm),
        if_neg (fun he : p.1 = k' => h (hp.symm.trans he).symm)]
    · rw [if_neg hp, alistGet_cons, alistGet_cons]
      by_cases hp' : p.1 = k'
      · rw [if_pos hp', if_pos hp']
      · rw [if_neg hp', if_neg hp']
        exact ih

theorem alistKeys_set {α : Type} (d : List (String × α)) (k : String) (v : α) :
    alistKeys (alistSet d k v) =
      if k ∈ alistKeys d then alistKeys d else alistKeys d ++ [k] := by
  induction d with
  | nil => simp [alistSet, alistKeys]
  | cons p t ih =>
    rw [alistSet_cons]
    by_cases hp : p.1 = k
    · rw [if_pos hp, if_pos (show k ∈ alistKeys (p :: t) from by
        simp only [alistKeys, List.map_cons, List.mem_cons]
        exact Or.inl hp.symm)]
      show k :: alistKeys t = p.1 :: alistKeys t
      rw [hp]
    · have hk : (k ∈ alistKeys (p :: t)) ↔ (k ∈ alistKeys t) := by
        simp only [alistKeys, List.map_cons, List.mem_cons]
        exact or_iff_right (fun he => hp he.symm)
      rw [if_neg hp]
      by_cases hm : k ∈ alistKeys t
      · rw [if_pos (hk.mpr hm)]
        show p.1 :: alistKeys (alistSet t k v) = p.1 :: alistKeys t
        rw [ih, if_pos hm]
      · rw [if_neg (fun hkk => hm (hk.mp hkk))]
        show p.1 :: alistKeys (alistSet t k v) = (p.1 :: alistKeys t) ++ [k]
        rw [ih, if_neg hm]
        rfl

theorem alistGet_eq_none_iff {α : Type} (d : List (String × α)) (k : String) :
    alistGet d k = none ↔ k ∉ alistKeys d := by
  induction d with
  | nil => simp [alistGet, alistKeys]
  | cons p t ih =>
    rw [alistGet_cons]
    by_cases hp : p.1 = k
    · rw [if_pos hp]
      simp only [alistKeys, List.map_cons, List.mem_cons]
      constructor
      · intro hs
        exact absurd hs (by simp)
      · intro hn
        exact absurd (Or.inl hp.symm) hn
    · rw [if_neg hp, ih]
      simp only [alistKeys, List.map_cons, List.mem_cons]
      constructor
      · intro hn
        exact not_or.mpr ⟨fun he => hp he.symm, hn⟩
      · intro hn
        exact (not_or.mp hn).2

theorem alistGet_mem {α : Type} {d : List (String × α)} {k : String} {v : α}
    (h : alistGet d k = some v) : (k, v) ∈ d := by
  induction d with
  | nil => exact absurd h (by simp [alistGet])
  | cons p t ih =>
    rw [alistGet_cons] at h
    by_cases hp : p.1 = k
    · rw [if_pos hp] at h
      injection h with h2
      rw [← hp, ← h2]
      exact List.mem_cons_self _ _
    · rw [if_neg hp] at h
      exact List.mem_cons_of_mem _ (ih h)

/-! Morphology Aggregator lemmas. -/

theorem processToken_blank (m : WFMap) (t : MorphToken) (h : pyStrip t.form = "") :
    processToken m t = m := by
  simp [processToken, h]

theorem processToken_ne (m : WFMap) (t : MorphToken) (W : String) (h : t.form ≠ W) :
    alistGet (processToken m t) W = alistGet m W := by
  unfold processToken
  by_cases hb : pyStrip t.form == ""
  · rw [if_pos hb]
  · rw [if_neg hb]
    exact alistGet_set_ne m t.form W _ (fun he => h he.symm)

theorem processToken_self (m : WFMap) (t : MorphToken) (hb : pyStrip t.form ≠ "") :
    alistGet (processToken m t) t.form = some (updateRec (alistGet m t.form) t) := by
  unfold processToken
  rw [if_neg (by simp [hb])]
  exact alistGet_set_self m t.form _

theorem updateRec_of_set (r : WFRec) (t : MorphToken) (h : r.lemma' ≠ none) :
    (updateRec (some r) t).lemma' = r.lemma' ∧ (updateRec (some r) t).upos = r.upos := by
  simp [updateRec, h]

theorem updateRec_of_new (t : MorphToken) :
    (updateRec none t).lemma' = some t.lemma' ∧ (updateRec none t).upos = some t.upos := by
  simp [updateRec, WFRec.init]

/-- Once lemma and upos are fixed on a record, no later token changes them. -/
theorem foldl_lemma_stable (ts : List MorphToken) (m : WFMap) (W : String)
    (l u : String)
    (hget : ∃ r, alistGet m W = some r ∧ r.lemma' = some l ∧ r.upos = some u) :
    ∃ r, alistGet (ts.foldl processToken m) W = some r ∧
      r.lemma' = some l ∧ r.upos = some u := by
  induction ts generalizing m with
  | nil => exact hget
  | cons t ts ih =>
    rw [List.foldl_cons]
    apply ih
    obtain ⟨r, hr, hl, hu⟩ := hget
    by_cases hb : pyStrip t.form = ""
    · rw [processToken_blank m t hb]
      exact ⟨r, hr, hl, hu⟩
    · by_cases hf : t.form = W
      · refine ⟨updateRec (some r) t, ?_, ?_, ?_⟩
        · rw [← hf, processToken_self m t hb, hf, hr]
        · rw [(updateRec_of_set r t (by simp [hl])).1, hl]
        · rw [(updateRec_of_set r t (by simp [hl])).2, hu]
      · rw [processToken_ne m t W hf]
        exact ⟨r, hr, hl, hu⟩

/-- A wordform whose surface form strips to the empty string is never
inserted. -/
theorem foldl_blank_absent (ts : List MorphToken) (m : WFMap) (W : String)
    (hW : pyStrip W = "") : alistGet (ts.foldl processToken m) W = alistGet m W := by
  induction ts generalizing m with
  | nil => rfl
  | cons t ts ih =>
    rw [List.foldl_cons, ih]
    by_cases hb : pyStrip t.form = ""
    · rw [processToken_blank m t hb]
    · apply processToken_ne
      intro he
      exact hb (by rw [he]; exact hW)

/-- Creation: if `W` is absent and ends up in the map, its lemma and upos are
those of the first token in stream order whose surface form is `W`. -/
theorem foldl_first_token (ts : List MorphToken) (m : WFMap) (W : String)
    (rec : WFRec) (habs : alistGet m W = none)
    (hget : alistGet (ts.foldl processToken m) W = some rec) :
    ∃ t, ts.find? (fun tok => tok.form == W) = some t ∧ pyStrip t.form ≠ "" ∧
      rec.lemma' = some t.lemma' ∧ rec.upos = some t.upos := by
  induction ts generalizing m with
  | nil =>
    rw [List.foldl_nil, habs] at hget
    cases hget
  | cons t ts ih =>
    by_cases hf : t.form = W
    · by_cases hb : pyStrip t.form = ""
      · have hWb : pyStrip W = "" := by rw [← hf]; exact hb
        have h2 : (some rec : Option WFRec) = none := by
          rw [← hget, foldl_blank_absent (t :: ts) m W hWb, habs]
        cases h2
      · have hstep : alistGet (processToken m t) W = some (updateRec none t) := by
          rw [← hf, processToken_self m t hb, hf, habs]
        have hst := foldl_lemma_stable ts (processToken m t) W t.lemma' t.upos
          ⟨updateRec none t, hstep, (updateRec_of_new t).1, (updateRec_of_new t).2⟩
        obtain ⟨r, hr, hl, hu⟩ := hst
        rw [List.foldl_cons, hr] at hget
        injection hget with h3
        subst h3
        exact ⟨t, List.find?_cons_of_pos _ (by simp [hf]), hb, hl, hu⟩
    · have hW : alistGet (processToken m t) W = none := by
        rw [processToken_ne m t W hf]; exact habs
      rw [List.foldl_cons] at hget
      obtain ⟨t', ht', hb', hl', hu'⟩ := ih (processToken m t) hW hget
      exact ⟨t', by rw [List.find?_cons_of_neg _ (by simp [hf])]; exact ht', hb', hl', hu'⟩

/-- The reservoir bound carries through one token. -/
theorem updateRec_ids_le (cur : Option WFRec) (t : MorphToken)
    (h : ∀ r, cur = some r → r.sentence_ids.length ≤ 10) :
    (updateRec cur t).sentence_ids.length ≤ 10 := by
  have hlen : (cur.getD WFRec.init).sentence_ids.length ≤ 10 := by
    cases cur with
    | none => simp [WFRec.init]
    | some r => exact h r rfl
  simp only [updateRec]
  split_ifs with h1 h2
  · exact hlen
  · rw [List.length_append]
    simp only [List.length_singleton]
    omega
  · exact hlen

theorem foldl_ids_bounded (ts : List MorphToken) (m : WFMap)
    (hm : ∀ W rec, alistGet m W = some rec → rec.sentence_ids.length ≤ 10) :
    ∀ W rec, alistGet (ts.foldl processToken m) W = some rec →
      rec.sentence_ids.length ≤ 10 := by
  induction ts generalizing m with
  | nil => exact hm
  | cons t ts ih =>
    rw [List.foldl_cons]
    apply ih
    intro W rec hget
    by_cases hb : pyStrip t.form = ""
    · rw [processToken_blank m t hb] at hget
      exact hm W rec hget
    · by_cases hf : t.form = W
      · rw [← hf, processToken_self m t hb] at hget
        injection hget with h3
        rw [← h3]
        exact updateRec_ids_le _ t (fun r hr => hm t.form r hr)
      · rw [processToken_ne m t W hf] at hget
        exact hm W rec hget

/-- A full reservoir drops the incoming sentence id while frequency still
counts the token. -/
theorem processToken_full_reservoir (m : WFMap) (t : MorphToken) (rec : WFRec)
    (hget : alistGet m t.form = some rec) (hfull : rec.sentence_ids.length = 10)
    (hb : pyStrip t.form ≠ "") :
    ∃ rec', alistGet (processToken m t) t.form = some rec' ∧
      rec'.sentence_ids = rec.sentence_ids ∧
      rec'.frequency = rec.frequency + 1 := by
  refine ⟨updateRec (some rec) t, ?_, ?_, ?_⟩
  · rw [processToken_self m t hb, hget]
  · simp [updateRec, hfull]
  · simp [updateRec]

/-- C3: for every wordform `W` the Morphology Aggregator produces, the stored
lemma and part-of-speech are exactly those of the first token in stream order
whose (non-blank) surface form equals `W` — case-sensitively — and no later
token for `W` changes them, whatever the subsequent tokens are. -/
theorem C3_first_seen_wins (ts : List MorphToken) (W : String) (rec : WFRec)
    (hget : alistGet (processTokens ts) W = some rec) :
    ∃ t, ts.find? (fun tok => tok.form == W) = some t ∧ pyStrip t.form ≠ "" ∧
      rec.lemma' = some t.lemma' ∧ rec.upos = some t.upos :=
  foldl_first_token ts [] W rec rfl hget

theorem C3_first_seen_wins_witness :
    ∃ t, ([(⟨"pes", "pes", "NOUN", "Case=Nom", "s1"⟩ : MorphToken),
        ⟨"pes", "iný", "VERB", "Case=Acc", "s2"⟩].find?
          (fun tok => tok.form == "pes")) = some t ∧
      pyStrip t.form ≠ "" ∧
      (⟨some "pes", some "NOUN", [("Case=Nom", 1), ("Case=Acc", 1)], 2,
        ["s1", "s2"]⟩ : WFRec).lemma' = some t.lemma' ∧
      (⟨some "pes", some "NOUN", [("Case=Nom", 1), ("Case=Acc", 1)], 2,
        ["s1", "s2"]⟩ : WFRec).upos = some t.upos :=
  C3_first_seen_wins
    [⟨"pes", "pes", "NOUN", "Case=Nom", "s1"⟩,
     ⟨"pes", "iný", "VERB", "Case=Acc", "s2"⟩] "pes"
    ⟨some "pes", some "NOUN", [("Case=Nom", 1), ("Case=Acc", 1)], 2,
      ["s1", "s2"]⟩ (by decide)

/-- C4: at every point during aggregation the sentence-id reservoir of any
wordform holds at most 10 distinct ids, and once it holds 10, the sentence id
of a further token for that wordform is silently dropped while the
total-frequency counter still counts that token. -/
theorem C4_reservoir_cap :
    (∀ ts W rec, alistGet (processTokens ts) W = some rec →
      rec.sentence_ids.length ≤ 10) ∧
    (∀ m t rec, alistGet m t.form = some rec → rec.sentence_ids.length = 10 →
      pyStrip t.form ≠ "" →
      ∃ rec', alistGet (processToken m t) t.form = some rec' ∧
        rec'.sentence_ids = rec.sentence_ids ∧
        rec'.frequency = rec.frequency + 1) := by
  constructor
  · intro ts W rec hget
    exact foldl_ids_bounded ts []
      (fun W r hr => by simp [alistGet] at hr) W rec hget
  · intro m t rec hget hfull hb
    exact processToken_full_reservoir m t rec hget hfull hb

theorem C4_reservoir_cap_witness :
    ((⟨some "k", some "N", [("", 11)], 11,
      ["s1", "s2", "s3", "s4", "s5", "s6", "s7", "s8", "s9", "s10"]⟩ :
        WFRec).sentence_ids.length ≤ 10) ∧
    (∃ rec', alistGet
        (processToken
          [("k", ⟨some "k", some "N", [("", 11)], 11,
            ["s1", "s2", "s3", "s4", "s5", "s6", "s7", "s8", "s9", "s10"]⟩)]
          ⟨"k", "k", "N", "", "s12"⟩)
        (MorphToken.form ⟨"k", "k", "N", "", "s12"⟩) = some rec' ∧
      rec'.sentence_ids =
        ["s1", "s2", "s3", "s4", "s5", "s6", "s7", "s8", "s9", "s10"] ∧
      rec'.frequency = 11 + 1) :=
  ⟨C4_reservoir_cap.1
      [⟨"k", "k", "N", "", "s1"⟩, ⟨"k", "k", "N", "", "s2"⟩,
       ⟨"k", "k", "N", "", "s3"⟩, ⟨"k", "k", "N", "", "s4"⟩,
       ⟨"k", "k", "N", "", "s5"⟩, ⟨"k", "k", "N", "", "s6"⟩,
       ⟨"k", "k", "N", "", "s7"⟩, ⟨"k", "k", "N", "", "s8"⟩,
       ⟨"k", "k", "N", "", "s9"⟩, ⟨"k", "k", "N", "", "s10"⟩,
       ⟨"k", "k", "N", "", "s11"⟩] "k"
      ⟨some "k", some "N", [("", 11)], 11,
        ["s1", "s2", "s3", "s4", "s5", "s6", "s7", "s8", "s9", "s10"]⟩
      (by decide),
    C4_reservoir_cap.2
      [("k", ⟨some "k", some "N", [("", 11)], 11,
        ["s1", "s2", "s3", "s4", "s5", "s6", "s7", "s8", "s9", "s10"]⟩)]
      ⟨"k", "k", "N", "", "s12"⟩
      ⟨some "k", some "N", [("", 11)], 11,
        ["s1", "s2", "s3", "s4", "s5", "s6", "s7", "s8", "s9", "s10"]⟩
      (by decide) (by decide) (by decide)⟩

/-! Most-frequent-feats lemmas (C6). -/

theorem mostCommon1_some_foldl (c : List (String × Nat)) (x : String × Nat) :
    c.foldl (fun best p =>
      match best with
      | none => some p
      | some b => if p.2 > b.2 then some p else some b) (some x)
      = some (c.foldl pickBest x) := by
  induction c generalizing x with
  | nil => rfl
  | cons p c ih =>
    rw [List.foldl_cons, List.foldl_cons]
    have hstep : (if p.2 > x.2 then some p else some x) = some (pickBest x p) := by
      by_cases h : p.2 > x.2 <;> simp [pickBest, h]
    show c.foldl _ (if p.2 > x.2 then some p else some x) = _
    rw [hstep, ih]

theorem mostCommon1_cons (x : String × Nat) (c : List (String × Nat)) :
    mostCommon1 (x :: c) = some (c.foldl pickBest x) := by
  unfold mostCommon1
  rw [List.foldl_cons]
  exact mostCommon1_some_foldl c x

/-- The fold result is the first entry carrying the maximum count: everything
strictly before it counts strictly less, everything overall counts no more. -/
theorem foldBest_firstmax (c : List (String × Nat)) (x : String × Nat) :
    ∃ pre post, x :: c = pre ++ (c.foldl pickBest x) :: post ∧
      (∀ q ∈ pre, q.2 < (c.foldl pickBest x).2) ∧
      (∀ q ∈ x :: c, q.2 ≤ (c.foldl pickBest x).2) := by
  induction c generalizing x with
  | nil => exact ⟨[], [], rfl, by simp, by simp⟩
  | cons p c ih =>
    rw [List.foldl_cons]
    by_cases hgt : p.2 > x.2
    · rw [show pickBest x p = p from if_pos hgt]
      obtain ⟨pre, post, hsplit, hpre, hall⟩ := ih p
      refine ⟨x :: pre, post, ?_, ?_, ?_⟩
      · rw [List.cons_append, ← hsplit]
      · intro q hq
        rcases List.mem_cons.mp hq with hqx | hqp
        · subst hqx
          exact lt_of_lt_of_le hgt (hall p (List.mem_cons_self _ _))
        · exact hpre q hqp
      · intro q hq
        rcases List.mem_cons.mp hq with hqx | hqp
        · subst hqx
          exact le_of_lt (lt_of_lt_of_le hgt (hall p (List.mem_cons_self _ _)))
        · exact hall q hqp
    · rw [show pickBest x p = x from if_neg hgt]
      obtain ⟨pre, post, hsplit, hpre, hall⟩ := ih x
      have hple : p.2 ≤ x.2 := le_of_not_lt hgt
      have hxle : x.2 ≤ (c.foldl pickBest x).2 :=
        hall x (List.mem_cons_self _ _)
      cases pre with
      | nil =>
        simp only [List.nil_append] at hsplit
        injection hsplit with h1 h2
        refine ⟨[], p :: c, ?_, by simp, ?_⟩
        · rw [List.nil_append, ← h1]
        · intro q hq
          rcases List.mem_cons.mp hq with hqx | hqp
          · subst hqx; exact hxle
          · rcases List.mem_cons.mp hqp with hqp' | hqc
            · subst hqp'; exact le_trans hple hxle
            · exact hall q (List.mem_cons_of_mem _ hqc)
      | cons y pre' =>
        simp only [List.cons_append] at hsplit
        injection hsplit with h1 h2
        refine ⟨x :: p :: pre', post, ?_, ?_, ?_⟩
        · rw [List.cons_append, List.cons_append, ← h2]
        · intro q hq
          rcases List.mem_cons.mp hq with hqx | hqp
          · subst hqx
            exact hpre y (List.mem_cons_self _ _) |>.trans_le' (le_of_eq (by rw [h1]))
          · rcases List.mem_cons.mp hqp with hqp' | hqpre
            · subst hqp'
              exact lt_of_le_of_lt hple
                (h1 ▸ hpre y (List.mem_cons_self _ _))
            · exact hpre q (List.mem_cons_of_mem _ hqpre)
        · intro q hq
          rcases List.mem_cons.mp hq with hqx | hqp
          · subst hqx; exact hxle
          · rcases List.mem_cons.mp hqp with hqp' | hqc
            · subst hqp'; exact le_trans hple hxle
            · exact hall q (List.mem_cons_of_mem _ hqc)

/-- C6: the persisted feature string is the one with the maximum count in the
record's feature-frequency counter, ties broken in favour of the entry first
inserted into the counter; and three tokens of form `sú` with feature strings
`Number=Plur`, `Number=Plur`, `Number=Sing` yield persisted feats
`Number=Plur` and frequency 3. -/
theorem C6_most_frequent_feats :
    (∀ (c : List (String × Nat)) (p : String × Nat), mostCommon1 c = some p →
      ∃ pre post, c = pre ++ p :: post ∧ (∀ q ∈ pre, q.2 < p.2) ∧
        (∀ q ∈ c, q.2 ≤ p.2)) ∧
    (∃ rec, alistGet (processTokens
        [⟨"sú", "byť", "AUX", "Number=Plur", "s1"⟩,
         ⟨"sú", "byť", "AUX", "Number=Plur", "s2"⟩,
         ⟨"sú", "byť", "AUX", "Number=Sing", "s3"⟩]) "sú" = some rec ∧
      mostCommonFeats rec.feats_counter = "Number=Plur" ∧
      rec.frequency = 3) := by
  constructor
  · intro c p hmc
    cases c with
    | nil => cases hmc
    | cons x c =>
      rw [mostCommon1_cons] at hmc
      injection hmc with h
      subst h
      exact foldBest_firstmax c x
  · exact ⟨⟨some "byť", some "AUX", [("Number=Plur", 2), ("Number=Sing", 1)], 3,
      ["s1", "s2", "s3"]⟩, by decide, by decide, by decide⟩

theorem C6_most_frequent_feats_witness :
    ∃ pre post, ([("Number=Plur", 2), ("Number=Sing", 1)] : List (String × Nat))
        = pre ++ ("Number=Plur", 2) :: post ∧
      (∀ q ∈ pre, q.2 < 2) ∧
      (∀ q ∈ ([("Number=Plur", 2), ("Number=Sing", 1)] : List (String × Nat)),
        q.2 ≤ 2) :=
  C6_most_frequent_feats.1 [("Number=Plur", 2), ("Number=Sing", 1)]
    ("Number=Plur", 2) (by decide)

/-! Malformed-line handling (C8). -/

theorem foldlM_processLine_append (ls₁ ls₂ : List MorphLine) (m : WFMap) :
    (ls₁ ++ ls₂).foldlM processLine m =
      (match ls₁.foldlM processLine m with
       | .error e => .error e
       | .ok m' => ls₂.foldlM processLine m') := by
  induction ls₁ generalizing m with
  | nil => rfl
  | cons l ls₁ ih =>
    rw [List.cons_append, List.foldlM_cons, List.foldlM_cons]
    cases hl : processLine m l with
    | error e => rfl
    | ok m' => exact ih m'

/-- C8 counterexample: the single line `{}` — syntactically valid JSON with
every field missing — is malformed input, yet `process_morphology_data`
aborts the whole run on it (uncaught `KeyError` from `data['form']`) instead
of skipping it: removing the line turns the aborted run into a successful
empty aggregation. -/
theorem C8_counterexample :
    process_morphology_data [MorphLine.obj ⟨none, none, none, none, none⟩]
      = .error "KeyError" ∧
    process_morphology_data ([] : List MorphLine) = .ok [] :=
  ⟨rfl, rfl⟩

/-- C8 (amended): a line that fails JSON decoding is skipped (the aggregation
result is as if the line were absent) and processing continues with the next
line; however, a line that decodes to an object missing a required field
raises an uncaught `KeyError` and aborts the whole aggregation run. -/
theorem C8_malformed_lines :
    (∀ ls₁ ls₂, process_morphology_data (ls₁ ++ MorphLine.badJson :: ls₂)
        = process_morphology_data (ls₁ ++ ls₂)) ∧
    (∀ ls₁ (o : MorphObj) ls₂ (m : WFMap), o.form = none →
      process_morphology_data ls₁ = .ok m →
      process_morphology_data (ls₁ ++ MorphLine.obj o :: ls₂)
        = .error "KeyError") := by
  constructor
  · intro ls₁ ls₂
    show (ls₁ ++ MorphLine.badJson :: ls₂).foldlM processLine []
      = (ls₁ ++ ls₂).foldlM processLine []
    rw [foldlM_processLine_append, foldlM_processLine_append]
    cases h : ls₁.foldlM processLine [] with
    | error e => rfl
    | ok m => rfl
  · intro ls₁ o ls₂ m hform hok
    show (ls₁ ++ MorphLine.obj o :: ls₂).foldlM processLine []
      = Except.error "KeyError"
    rw [foldlM_processLine_append]
    have hok' : ls₁.foldlM processLine [] = .ok m := hok
    rw [hok']
    obtain ⟨f1, f2, f3, f4, f5⟩ := o
    have h1 : f1 = none := hform
    subst h1
    rfl

theorem C8_malformed_lines_witness :
    (process_morphology_data [MorphLine.badJson]
      = process_morphology_data ([] : List MorphLine)) ∧
    (process_morphology_data [MorphLine.obj ⟨none, some "l", some "N",
        some "", some "s1"⟩] = .error "KeyError") :=
  ⟨C8_malformed_lines.1 [] [],
   C8_malformed_lines.2 [] ⟨none, some "l", some "N", some "", some "s1"⟩ []
     [] rfl rfl⟩

/-! Example Selector lemmas (C2). -/

theorem strLength_pos (s : String) (h : s ≠ "") : 0 < s.length := by
  cases s with
  | mk data =>
    cases data with
    | nil => exact absurd rfl h
    | cons c cs => simp [String.length]

theorem fillSelected_mem : ∀ (n max : Nat) (sel rem : List String),
    rem.length ≤ n → ∀ e ∈ fillSelected max sel rem, e ∈ sel ∨ e ∈ rem := by
  intro n
  induction n with
  | zero =>
    intro max sel rem hlen e he
    have hr : rem = [] := List.length_eq_zero.mp (Nat.le_zero.mp hlen)
    subst hr
    rw [fillSelected] at he
    rw [dif_neg (by simp)] at he
    exact Or.inl he
  | succ n ih =>
    intro max sel rem hlen e he
    rw [fillSelected] at he
    by_cases hc : sel.length < max ∧ rem ≠ []
    · rw [dif_pos hc] at he
      have hlen' : rem.dropLast.length ≤ n := by
        rw [List.length_dropLast]
        have : rem.length ≠ 0 := fun h0 => hc.2 (List.length_eq_zero.mp h0)
        omega
      rcases ih max (sel ++ [rem.getLast hc.2]) rem.dropLast hlen' e he with hsel | hrem
      · rcases List.mem_append.mp hsel with h3 | h3
        · exact Or.inl h3
        · right
          rw [List.mem_singleton.mp h3]
          exact List.getLast_mem hc.2
      · exact Or.inr (List.dropLast_subset rem hrem)
    · rw [dif_neg hc] at he
      exact Or.inl he

/-- Every element of the first/last/middle seed belongs to the pool. -/
theorem seed_mem (available : List String) (hne : available ≠ []) :
    ∀ x ∈ (if available.length > 2 then
        (if available.length > 1 then [available.headI] ++ [available.getLastI]
         else [available.headI]) ++ [available.getI (available.length / 2)]
      else (if available.length > 1 then
        [available.headI] ++ [available.getLastI]
       else [available.headI])), x ∈ available := by
  have hhead : available.headI ∈ available := by
    cases available with
    | nil => exact absurd rfl hne
    | cons a t => exact List.mem_cons_self _ _
  have hlast : available.getLastI ∈ available := by
    rw [List.getLastI_eq_getLast?, List.getLast?_eq_getLast available hne,
      Option.iget_some]
    exact List.getLast_mem hne
  intro x hx
  by_cases h2 : available.length > 2
  · have h1 : available.length > 1 := by omega
    have hlt : available.length / 2 < available.length :=
      Nat.div_lt_self (by omega) (by omega)
    have hmid : available.getI (available.length / 2) ∈ available := by
      rw [List.getI_eq_getElem _ hlt]
      exact List.getElem_mem hlt
    rw [if_pos h2, if_pos h1] at hx
    rcases List.mem_append.mp hx with hx | hx
    · rcases List.mem_append.mp hx with hx | hx
      · rw [List.mem_singleton.mp hx]; exact hhead
      · rw [List.mem_singleton.mp hx]; exact hlast
    · rw [List.mem_singleton.mp hx]; exact hmid
  · rw [if_neg h2] at hx
    by_cases h1 : available.length > 1
    · rw [if_pos h1] at hx
      rcases List.mem_append.mp hx with hx | hx
      · rw [List.mem_singleton.mp hx]; exact hhead
      · rw [List.mem_singleton.mp hx]; exact hlast
    · rw [if_neg h1] at hx
      rw [List.mem_singleton.mp hx]; exact hhead

theorem diversitySelect_mem (shuffle : List String → List String)
    (hsh : ∀ (l : List String) (x : String), x ∈ shuffle l → x ∈ l)
    (available : List String) (max : Nat) (hne : available ≠ [])
    (e : String) (he : e ∈ diversitySelect shuffle available max) :
    e ∈ available := by
  unfold diversitySelect at he
  dsimp only at he
  have he' := List.take_subset _ _ he
  rcases fillSelected_mem (shuffle (available.filter _)).length max _ _ le_rfl
      e he' with h | h
  · exact seed_mem available hne e h
  · exact List.mem_of_mem_filter (hsh _ e h)

theorem availableSentences_mem (ids : List String)
    (sentences : String → Option String) (e : String)
    (he : e ∈ availableSentences ids sentences) :
    ∃ sid text, sentences sid = some text ∧ e = pyStrip text := by
  rcases List.mem_filterMap.mp he with ⟨sid, hsid, hf⟩
  cases hs : sentences sid with
  | none => simp [hs] at hf
  | some text =>
    simp only [hs] at hf
    by_cases hg : goodSentence (pyStrip text)
    · rw [if_pos hg] at hf
      injection hf with hf
      exact ⟨sid, text, hs, hf.symm⟩
    · rw [if_neg hg] at hf
      cases hf

theorem fallbackSentences_mem (ids : List String)
    (sentences : String → Option String) (e : String)
    (he : e ∈ fallbackSentences ids sentences) :
    ∃ sid text, sentences sid = some text ∧ e = pyStrip text := by
  unfold fallbackSentences at he
  split at he
  · next sid hf =>
    have hp := List.find?_some hf
    obtain ⟨text, hs⟩ := Option.isSome_iff_exists.mp hp
    rw [List.mem_singleton] at he
    refine ⟨sid, text, hs, ?_⟩
    rw [he, hs, Option.getD_some]
  · cases he

theorem select_branch_length_le (shuffle : List String → List String)
    (X : List String) (max : Nat) :
    (if X.length ≤ max then X else diversitySelect shuffle X max).length ≤ max := by
  split
  · assumption
  · unfold diversitySelect
    dsimp only
    exact List.length_take_le _ _

theorem select_length_le (shuffle : List String → List String)
    (ids : List String) (sentences : String → Option String) (max : Nat) :
    (select_example_sentences shuffle ids sentences max).length ≤ max := by
  unfold select_example_sentences
  dsimp only
  split <;> exact select_branch_length_le shuffle _ max

theorem select_branch_mem (shuffle : List String → List String)
    (hsh : ∀ (l : List String) (x : String), x ∈ shuffle l → x ∈ l)
    (sentences : String → Option String) (X : List String) (max : Nat)
    (e : String)
    (hX : ∀ x ∈ X, ∃ sid text, sentences sid = some text ∧ x = pyStrip text)
    (he : e ∈ (if X.length ≤ max then X else diversitySelect shuffle X max)) :
    ∃ sid text, sentences sid = some text ∧ e = pyStrip text := by
  split at he
  · exact hX e he
  · next hlen =>
    refine hX e (diversitySelect_mem shuffle hsh X max ?_ e he)
    intro h0
    rw [h0] at hlen
    simp at hlen

theorem select_mem_source (shuffle : List String → List String)
    (hsh : ∀ (l : List String) (x : String), x ∈ shuffle l → x ∈ l)
    (ids : List String) (sentences : String → Option String) (max : Nat)
    (e : String) (he : e ∈ select_example_sentences shuffle ids sentences max) :
    ∃ sid text, sentences sid = some text ∧ e = pyStrip text := by
  unfold select_example_sentences at he
  dsimp only at he
  split at he
  · exact select_branch_mem shuffle hsh sentences _ max e
      (fun x hx => fallbackSentences_mem ids sentences x hx) he
  · exact select_branch_mem shuffle hsh sentences _ max e
      (fun x hx => availableSentences_mem ids sentences x hx) he

/-- C2 counterexample: a reservoir whose only resolvable sentence text is
whitespace-only flows through the selector's fallback and is persisted as the
empty string — the placeholder is not substituted because the selector's list
`[""]` is non-empty, so a persisted example of length 0 exists. -/
theorem C2_counterexample :
    (buildRow id (fun sid => if sid = "s1" then some "  " else none) "w"
      ⟨some "w", some "NOUN", [("", 1)], 1, ["s1"]⟩).sentences = [""] ∧
    ¬ (∀ e ∈ (buildRow id (fun sid => if sid = "s1" then some "  " else none)
        "w" ⟨some "w", some "NOUN", [("", 1)], 1, ["s1"]⟩).sentences,
      0 < e.length) := by
  constructor
  · decide
  · decide

/-- C2 (amended): every persisted row carries between 1 and 5 example
sentences, and the synthetic non-empty placeholder is substituted exactly
when the Example Selector returns an empty list; every persisted example is
non-empty provided every text in the Sentence Store is non-blank, but a
sentence that strips to the empty string can be persisted as an empty example
through the selector's fallback. -/
theorem C2_examples_invariant (shuffle : List String → List String)
    (hsh : ∀ (l : List String) (x : String), x ∈ shuffle l → x ∈ l)
    (sentences : String → Option String) (wordform : String) (data : WFRec) :
    1 ≤ (buildRow shuffle sentences wordform data).sentences.length ∧
    (buildRow shuffle sentences wordform data).sentences.length ≤ 5 ∧
    (select_example_sentences shuffle data.sentence_ids sentences 5 = [] →
      (buildRow shuffle sentences wordform data).sentences
        = ["Пример с '" ++ wordform ++ "' недоступен."]) ∧
    ((∀ sid text, sentences sid = some text → pyStrip text ≠ "") →
      ∀ e ∈ (buildRow shuffle sentences wordform data).sentences,
        0 < e.length) := by
  by_cases hsel : select_example_sentences shuffle data.sentence_ids sentences 5 = []
  · have hrow : (buildRow shuffle sentences wordform data).sentences
        = ["Пример с '" ++ wordform ++ "' недоступен."] := by
      simp [buildRow, hsel]
    refine ⟨by rw [hrow]; simp, by rw [hrow]; simp, fun _ => hrow, ?_⟩
    intro hstore e he
    rw [hrow, List.mem_singleton] at he
    subst he
    apply strLength_pos
    intro hcontra
    have : ("Пример с '" ++ wordform ++ "' недоступен.").length = 0 := by
      rw [hcontra]; rfl
    rw [String.length_append, String.length_append] at this
    have hlit : 0 < ("Пример с '" : String).length := by decide
    omega
  · have hrow : (buildRow shuffle sentences wordform data).sentences
        = select_example_sentences shuffle data.sentence_ids sentences 5 := by
      simp [buildRow, hsel]
    refine ⟨?_, ?_, fun h => absurd h hsel, ?_⟩
    · rw [hrow]
      exact Nat.one_le_iff_ne_zero.mpr
        (fun h0 => hsel (List.length_eq_zero.mp h0))
    · rw [hrow]
      exact select_length_le shuffle data.sentence_ids sentences 5
    · intro hstore e he
      rw [hrow] at he
      obtain ⟨sid, text, hs, hes⟩ :=
        select_mem_source shuffle hsh data.sentence_ids sentences 5 e he
      rw [hes]
      exact strLength_pos _ (hstore sid text hs)

theorem C2_examples_invariant_witness :
    1 ≤ (buildRow id (fun _ => none) "w"
      ⟨some "w", some "N", [], 0, []⟩).sentences.length ∧
    (buildRow id (fun _ => none) "w"
      ⟨some "w", some "N", [], 0, []⟩).sentences.length ≤ 5 ∧
    (select_example_sentences id
        (WFRec.sentence_ids ⟨some "w", some "N", [], 0, []⟩)
        (fun _ => none) 5 = [] →
      (buildRow id (fun _ => none) "w"
        ⟨some "w", some "N", [], 0, []⟩).sentences
        = ["Пример с '" ++ "w" ++ "' недоступен."]) ∧
    ((∀ sid text, (fun _ => none : String → Option String) sid = some text →
        pyStrip text ≠ "") →
      ∀ e ∈ (buildRow id (fun _ => none) "w"
        ⟨some "w", some "N", [], 0, []⟩).sentences, 0 < e.length) :=
  C2_examples_invariant id (fun _ _ h => h) (fun _ => none) "w"
    ⟨some "w", some "N", [], 0, []⟩

/-! Index Builder run (C1, C10). -/

/-- C1 counterexample: with a previously published store on disk, simulating
a failure after 0 of 1 row insertions does not leave that store untouched —
it is gone (deleted at the start of the build) and an empty fresh store sits
in its place. -/
theorem C1_counterexample :
    (create_sqlite_database_run (some [⟨"old", "old", "NOUN", "", 1, ["e"]⟩])
        id (fun _ => none)
        [("w", ⟨some "w", some "NOUN", [("", 1)], 1, ["s1"]⟩)] (some 0)).1
      ≠ some [⟨"old", "old", "NOUN", "", 1, ["e"]⟩] := by
  decide

/-- C1 (amended): all rows of one build are inserted within a single
transaction, but the previously published store is deleted at the start of
the build, before any insertion; a failure after `n` of `m` row insertions
(`n < m`) therefore rolls the transaction back to the freshly created empty
store — the previous store is not preserved. -/
theorem C1_build_transaction (fs₀ : Option (List IndexRow))
    (shuffle : List String → List String) (sentences : String → Option String)
    (wfs : WFMap) (n : Nat) (h : n < wfs.length) :
    create_sqlite_database_run fs₀ shuffle sentences wfs (some n)
      = (some [], .error "sqlite3.OperationalError") := by
  unfold create_sqlite_database_run
  dsimp only
  rw [if_pos (by rw [List.length_map]; exact h)]

theorem C1_build_transaction_witness :
    create_sqlite_database_run (some [⟨"old", "old", "NOUN", "", 1, ["e"]⟩])
        id (fun _ => none)
        [("w", ⟨some "w", some "NOUN", [("", 1)], 1, ["s1"]⟩)] (some 0)
      = (some [], .error "sqlite3.OperationalError") :=
  C1_build_transaction (some [⟨"old", "old", "NOUN", "", 1, ["e"]⟩]) id
    (fun _ => none) [("w", ⟨some "w", some "NOUN", [("", 1)], 1, ["s1"]⟩)] 0
    (by decide)

/-- C10: with an empty aggregated wordform map (e.g. every morphology line
failed JSON decoding), the build deletes any previous store, creates and
commits an empty store, and then raises `ZeroDivisionError` while computing
the average-examples statistic: the run ends in error with an empty store on
disk and no statistics. -/
theorem C10_empty_map_division_by_zero :
    (∀ (n : Nat), process_morphology_data
      (List.replicate n MorphLine.badJson) = .ok []) ∧
    (∀ (fs₀ : Option (List IndexRow)) (shuffle : List String → List String)
      (sentences : String → Option String),
      create_sqlite_database_run fs₀ shuffle sentences [] none
        = (some [], .error "ZeroDivisionError")) := by
  constructor
  · intro n
    induction n with
    | zero => rfl
    | succ n ih =>
      show (MorphLine.badJson :: List.replicate n MorphLine.badJson).foldlM
        processLine [] = .ok []
      rw [List.foldlM_cons]
      exact ih
  · intro fs₀ shuffle sentences
    rfl

/-! Candidate Extractor key filter (C7). -/

/-! Heap-level Merge/Dedup lemmas (C9). -/

theorem heapGet_set_self (h : Heap) (r : Nat) (v : List String)
    (hr : r < h.length) : heapGet (h.set r v) r = v := by
  induction h generalizing r with
  | nil => simp at hr
  | cons a t ih =>
    cases r with
    | zero => rfl
    | succ r => exact ih r (Nat.lt_of_succ_lt_succ hr)

theorem heapGet_set_ne (h : Heap) (r n : Nat) (v : List String)
    (hne : n ≠ r) : heapGet (h.set r v) n = heapGet h n := by
  induction h generalizing r n with
  | nil => rfl
  | cons a t ih =>
    cases r with
    | zero =>
      cases n with
      | zero => exact absurd rfl hne
      | succ n => rfl
    | succ r =>
      cases n with
      | zero => rfl
      | succ n => exact ih r n (fun he => hne (congrArg Nat.succ he))

theorem heapGet_append_lt (h l : Heap) (n : Nat) (hn : n < h.length) :
    heapGet (h ++ l) n = heapGet h n := by
  induction h generalizing n with
  | nil => simp at hn
  | cons a t ih =>
    cases n with
    | zero => rfl
    | succ n => exact ih n (Nat.lt_of_succ_lt_succ hn)

theorem alistGet_append {α : Type} (d₁ d₂ : List (String × α)) (k : String) :
    alistGet (d₁ ++ d₂) k = (match alistGet d₁ k with
      | some v => some v
      | none => alistGet d₂ k) := by
  induction d₁ with
  | nil => rfl
  | cons p t ih =>
    rw [List.cons_append, alistGet_cons, alistGet_cons]
    by_cases hp : p.1 = k
    · rw [if_pos hp, if_pos hp]
    · rw [if_neg hp, if_neg hp]
      exact ih

/-- One heap-merge iteration preserves the invariant; the tracked cell gains
the source's lines exactly when the entry's word is `k`. -/
theorem mergeEntryH_inv (h₀ : Heap) (ex : RefDict) (k : String) (r : Nat)
    (hrefs : (ex.map (fun p => p.2)).Nodup)
    (hkr : alistGet ex k = some r) (hrv : r < h₀.length)
    (p : String × Nat) (hpv : p.2 < h₀.length)
    (hpd : ∀ q ∈ ex, p.2 ≠ q.2)
    (st : MergeState) (acc : List String)
    (hinv : HeapInv h₀ ex k r st acc) :
    HeapInv h₀ ex k r (mergeEntryH st p)
      (acc ++ (if p.1 = k then heapGet h₀ p.2 else [])) := by
  obtain ⟨h1, h2, h3, h4, h5⟩ := hinv
  have hsrc : heapGet st.heap p.2 = heapGet h₀ p.2 := h2 p.2 hpv hpd
  unfold mergeEntryH
  cases hw : alistGet st.merged p.1 with
  | some rmw =>
    dsimp only
    by_cases hpk : p.1 = k
    · -- the entry extends the caller's cell `r` in place
      rw [hpk, h4] at hw
      injection hw with hrr
      subst hrr
      refine ⟨by rw [List.length_set]; exact h1, ?_, h3, h4, ?_⟩
      · intro n hn hq
        rw [heapGet_set_ne _ _ _ _ (hq (k, r) (alistGet_mem hkr))]
        exact h2 n hn hq
      · rw [heapGet_set_self _ _ _ (lt_of_lt_of_le hrv h1), hsrc, h5,
          if_pos hpk, List.append_assoc]
    · -- the entry writes some other cell, never `r`
      have hne_r : rmw ≠ r := by
        rcases h3 p.1 rmw hw with hex | hge
        · intro he
          subst he
          exact hpk (congrArg Prod.fst
            (List.inj_on_of_nodup_map hrefs (alistGet_mem hex)
              (alistGet_mem hkr) rfl))
        · exact fun he => absurd (he ▸ hge) (not_le.mpr hrv)
      refine ⟨by rw [List.length_set]; exact h1, ?_, h3, h4, ?_⟩
      · intro n hn hq
        have hnw : n ≠ rmw := by
          rcases h3 p.1 rmw hw with hex | hge
          · exact hq (p.1, rmw) (alistGet_mem hex)
          · omega
        rw [heapGet_set_ne _ _ _ _ hnw]
        exact h2 n hn hq
      · rw [if_neg hpk, List.append_nil,
          heapGet_set_ne _ _ _ _ (fun he => hne_r he.symm)]
        exact h5
  | none =>
    dsimp only
    have hpk : p.1 ≠ k := by
      intro he
      rw [he, h4] at hw
      cases hw
    refine ⟨?_, ?_, ?_, ?_, ?_⟩
    · rw [List.length_append]
      exact le_trans h1 (Nat.le_add_right _ _)
    · intro n hn hq
      rw [heapGet_append_lt _ _ n (lt_of_lt_of_le hn h1)]
      exact h2 n hn hq
    · intro w rw' hw'
      rw [alistGet_append] at hw'
      cases hmw : alistGet st.merged w with
      | some v =>
        rw [hmw] at hw'
        injection hw' with hv
        exact hv ▸ h3 w v hmw
      | none =>
        rw [hmw] at hw'
        rw [alistGet_cons] at hw'
        by_cases hpw : p.1 = w
        · rw [if_pos hpw] at hw'
          injection hw' with hv
          right
          rw [← hv]
          exact h1
        · rw [if_neg hpw] at hw'
          cases hw'
    · rw [alistGet_append, h4]
    · rw [if_neg hpk, List.append_nil,
        heapGet_append_lt _ _ r (lt_of_lt_of_le hrv h1)]
      exact h5

/-- Folding one whole source dict extends the caller's cell for `k` by
exactly that source's lines for `k` (read from the original heap). -/
theorem mergeSourceH_inv (h₀ : Heap) (ex : RefDict) (k : String) (r : Nat)
    (hrefs : (ex.map (fun p => p.2)).Nodup)
    (hkr : alistGet ex k = some r) (hrv : r < h₀.length)
    (d : RefDict) (hdn : (alistKeys d).Nodup)
    (hdv : ∀ p ∈ d, p.2 < h₀.length)
    (hdd : ∀ p ∈ d, ∀ q ∈ ex, p.2 ≠ q.2)
    (st : MergeState) (acc : List String)
    (hinv : HeapInv h₀ ex k r st acc) :
    HeapInv h₀ ex k r (mergeSourceH st d)
      (acc ++ ((alistGet d k).map (heapGet h₀)).getD []) := by
  induction d generalizing st acc with
  | nil => simpa [alistGet] using hinv
  | cons p t ih =>
    have hnd := List.nodup_cons.mp hdn
    have hstep := mergeEntryH_inv h₀ ex k r hrefs hkr hrv p
      (hdv p (List.mem_cons_self _ _)) (hdd p (List.mem_cons_self _ _))
      st acc hinv
    have hrest := ih hnd.2 (fun q hq => hdv q (List.mem_cons_of_mem _ hq))
      (fun q hq => hdd q (List.mem_cons_of_mem _ hq))
      (mergeEntryH st p) (acc ++ (if p.1 = k then heapGet h₀ p.2 else []))
      hstep
    have hacc : (acc ++ (if p.1 = k then heapGet h₀ p.2 else []))
        ++ ((alistGet t k).map (heapGet h₀)).getD []
        = acc ++ ((alistGet (p :: t) k).map (heapGet h₀)).getD [] := by
      rw [alistGet_cons]
      by_cases hpk : p.1 = k
      · rw [if_pos hpk, if_pos hpk,
          (alistGet_eq_none_iff t k).mpr (hpk ▸ hnd.1)]
        simp
      · rw [if_neg hpk, if_neg hpk]
        simp
    exact hacc ▸ hrest

/-- Folding all sources extends the caller's cell for `k` by the
concatenation of every source's lines for `k`. -/
theorem mergeHeapRun_inv (h₀ : Heap) (ex : RefDict) (k : String) (r : Nat)
    (hrefs : (ex.map (fun p => p.2)).Nodup)
    (hkr : alistGet ex k = some r) (hrv : r < h₀.length)
    (ds : List RefDict)
    (hds : ∀ d ∈ ds, (alistKeys d).Nodup ∧ (∀ p ∈ d, p.2 < h₀.length) ∧
      (∀ p ∈ d, ∀ q ∈ ex, p.2 ≠ q.2))
    (st : MergeState) (acc : List String)
    (hinv : HeapInv h₀ ex k r st acc) :
    HeapInv h₀ ex k r (ds.foldl mergeSourceH st)
      (acc ++ (ds.map
        (fun d => ((alistGet d k).map (heapGet h₀)).getD [])).flatten) := by
  induction ds generalizing st acc with
  | nil => simpa using hinv
  | cons d ds ih =>
    obtain ⟨hn, hv, hdj⟩ := hds d (List.mem_cons_self _ _)
    have hstep := mergeSourceH_inv h₀ ex k r hrefs hkr hrv d hn hv hdj
      st acc hinv
    have hrest := ih (fun d' hd' => hds d' (List.mem_cons_of_mem _ hd'))
      (mergeSourceH st d) _ hstep
    have hacc : (acc ++ ((alistGet d k).map (heapGet h₀)).getD [])
        ++ (ds.map (fun d => ((alistGet d k).map (heapGet h₀)).getD [])).flatten
        = acc ++ ((d :: ds).map
            (fun d => ((alistGet d k).map (heapGet h₀)).getD [])).flatten := by
      rw [List.map_cons, List.flatten_cons, ← List.append_assoc]
    exact hacc ▸ hrest

/-- C9: `merge_and_clean` does not leave its first argument unchanged —
because the accumulator is a shallow copy of the existing dict, for every key
`k` present in the existing dict (at heap cell `r`), its example list is
extended in place by the lines of every source dict containing `k`; whenever
at least one source contributes a non-empty list for `k`, the caller's list
differs from its value before the merge. -/
theorem C9_merge_mutates_caller (h₀ : Heap) (ex : RefDict)
    (ds : List RefDict) (k : String) (r : Nat)
    (hrefs : (ex.map (fun p => p.2)).Nodup)
    (hval : ∀ p ∈ ex, p.2 < h₀.length)
    (hds : ∀ d ∈ ds, (alistKeys d).Nodup ∧ (∀ p ∈ d, p.2 < h₀.length) ∧
      (∀ p ∈ d, ∀ q ∈ ex, p.2 ≠ q.2))
    (hkr : alistGet ex k = some r) :
    heapGet (merge_and_clean_heap h₀ ex ds).heap r
      = heapGet h₀ r ++ (ds.map
          (fun d => ((alistGet d k).map (heapGet h₀)).getD [])).flatten ∧
    ((∃ d ∈ ds, ((alistGet d k).map (heapGet h₀)).getD [] ≠ []) →
      heapGet (merge_and_clean_heap h₀ ex ds).heap r ≠ heapGet h₀ r) := by
  have hrv : r < h₀.length := hval (k, r) (alistGet_mem hkr)
  have hinit : HeapInv h₀ ex k r ⟨h₀, ex⟩ [] :=
    ⟨le_rfl, fun n _ _ => rfl, fun w rw' h => Or.inl h, hkr,
      by rw [List.append_nil]⟩
  have hrun := mergeHeapRun_inv h₀ ex k r hrefs hkr hrv ds hds ⟨h₀, ex⟩ []
    hinit
  have hmain : heapGet (merge_and_clean_heap h₀ ex ds).heap r
      = heapGet h₀ r ++ (ds.map
          (fun d => ((alistGet d k).map (heapGet h₀)).getD [])).flatten := by
    have h5 := hrun.2.2.2.2
    rw [List.nil_append] at h5
    exact h5
  refine ⟨hmain, ?_⟩
  rintro ⟨d, hd, hne⟩ hcontra
  rw [hmain] at hcontra
  have hlen := congrArg List.length hcontra
  rw [List.length_append] at hlen
  have hj : (ds.map
      (fun d => ((alistGet d k).map (heapGet h₀)).getD [])).flatten = [] := by
    apply List.length_eq_zero.mp
    omega
  exact hne (List.flatten_eq_nil_iff.mp hj _ (List.mem_map_of_mem _ hd))

theorem C9_merge_mutates_caller_witness :
    (heapGet (merge_and_clean_heap [["old"], ["new"]] [("a", 0)]
        [[("a", 1)]]).heap 0
      = heapGet [["old"], ["new"]] 0
        ++ (([[("a", 1)]] : List RefDict).map
            (fun d => ((alistGet d "a").map
              (heapGet [["old"], ["new"]])).getD [])).flatten) ∧
    ((∃ d ∈ ([[("a", 1)]] : List RefDict),
        ((alistGet d "a").map (heapGet [["old"], ["new"]])).getD [] ≠ []) →
      heapGet (merge_and_clean_heap [["old"], ["new"]] [("a", 0)]
          [[("a", 1)]]).heap 0
        ≠ heapGet [["old"], ["new"]] 0) :=
  C9_merge_mutates_caller [["old"], ["new"]] [("a", 0)] [[("a", 1)]] "a" 0
    (by decide) (by decide) (by decide) (by decide)

theorem alphabet_not_whitespace (c : Char) (h : isAlphabetChar c = true) :
    pyWhitespace c = false := by
  by_contra hw
  have hw' : pyWhitespace c = true := by
    revert hw
    cases pyWhitespace c <;> simp
  simp only [pyWhitespace, Bool.or_eq_true, beq_iff_eq] at hw'
  rcases hw' with ((((h1 | h1) | h1) | h1) | h1) | h1 <;>
    (subst h1; exact absurd h (by decide))

/-- C7: an accepted key contains no namespace separator, no whitespace and no
digit, consists solely of characters of the fixed alphabet class (ASCII
letters plus the À..ž diacritic range), has between 2 and 30 code points, and
is emitted lower-cased; "dom2" and "New York" are rejected, "mačka" is
accepted. -/
theorem C7_candidate_key_filter :
    (∀ (title key : List Char), candidateKey title = some key →
      ':' ∉ stripChars title ∧
      (∀ c ∈ stripChars title, pyWhitespace c = false) ∧
      (∀ c ∈ stripChars title, c.isDigit = false) ∧
      (∀ c ∈ stripChars title, isAlphabetChar c = true) ∧
      2 ≤ (stripChars title).length ∧ (stripChars title).length ≤ 30 ∧
      key = pyLower (stripChars title)) ∧
    (candidateKey "dom2".data = none ∧ candidateKey "New York".data = none ∧
      candidateKey "mačka".data = some "mačka".data) := by
  constructor
  · intro title key h
    unfold candidateKey at h
    dsimp only at h
    cases h1 : ((stripChars title).contains ':'
        || (stripChars title).contains ' '
        || (stripChars title).any Char.isDigit) with
    | true =>
      rw [if_pos h1] at h
      cases h
    | false =>
      rw [if_neg (by rw [h1]; decide)] at h
      cases h2 : ((stripChars title).all isAlphabetChar
          && decide (2 ≤ (stripChars title).length)
          && decide ((stripChars title).length ≤ 30)) with
      | false =>
        rw [if_pos (by rw [h2]; decide)] at h
        cases h
      | true =>
        rw [if_neg (by rw [h2]; decide)] at h
        injection h with hkey
        simp only [Bool.or_eq_false_iff] at h1
        obtain ⟨⟨hc1, hc2⟩, hc3⟩ := h1
        simp only [Bool.and_eq_true, List.all_eq_true, decide_eq_true_eq] at h2
        obtain ⟨⟨hall, hlen1⟩, hlen2⟩ := h2
        refine ⟨?_, ?_, ?_, hall, hlen1, hlen2, hkey.symm⟩
        · intro hmem
          simp at hc1
          exact hc1 hmem
        · intro c hc
          exact alphabet_not_whitespace c (hall c hc)
        · intro c hc
          simp [List.any_eq_false] at hc3
          exact hc3 c hc
  · exact ⟨by decide, by decide, by decide⟩

/-! Merge/Dedup Engine lemmas (C5). -/

theorem ufStep_mem (acc : List String) (l : List String) (x : String) :
    x ∈ l.foldl (fun acc y => if y ∈ acc then acc else acc ++ [y]) acc ↔
      x ∈ acc ∨ x ∈ l := by
  induction l generalizing acc with
  | nil => simp
  | cons y t ih =>
    rw [List.foldl_cons]
    by_cases hy : y ∈ acc
    · rw [if_pos hy, ih]
      constructor
      · rintro (h | h)
        · exact Or.inl h
        · exact Or.inr (List.mem_cons_of_mem _ h)
      · rintro (h | h)
        · exact Or.inl h
        · rcases List.mem_cons.mp h with h2 | h2
          · exact Or.inl (h2 ▸ hy)
          · exact Or.inr h2
    · rw [if_neg hy, ih]
      simp only [List.mem_append, List.mem_singleton, List.mem_cons]
      tauto

theorem ufFold_skip (acc : List String) (zs : List String)
    (hz : ∀ z ∈ zs, z ∈ acc) :
    zs.foldl (fun acc y => if y ∈ acc then acc else acc ++ [y]) acc = acc := by
  induction zs with
  | nil => rfl
  | cons z t ih =>
    rw [List.foldl_cons, if_pos (hz z (List.mem_cons_self _ _))]
    exact ih (fun z' hz' => hz z' (List.mem_cons_of_mem _ hz'))

theorem uniqueFirst_append_of_subset (l zs : List String)
    (hz : ∀ z ∈ zs, z ∈ l) : uniqueFirst (l ++ zs) = uniqueFirst l := by
  unfold uniqueFirst
  rw [List.foldl_append]
  exact ufFold_skip _ zs
    (fun z hzz => (ufStep_mem [] l z).mpr (Or.inr (hz z hzz)))

theorem alistGet_isSome_of_mem_keys {α : Type} (d : List (String × α))
    (k : String) (h : k ∈ alistKeys d) : ∃ v, alistGet d k = some v := by
  cases hg : alistGet d k with
  | none => exact absurd ((alistGet_eq_none_iff d k).mp hg) (not_not_intro h)
  | some v => exact ⟨v, rfl⟩

theorem alistSet_nodup {α : Type} (d : List (String × α)) (k : String) (v : α)
    (h : (alistKeys d).Nodup) : (alistKeys (alistSet d k v)).Nodup := by
  rw [alistKeys_set]
  split
  · exact h
  · next hm =>
    refine List.Nodup.append h (List.nodup_singleton k) ?_
    intro a ha hb
    rw [List.mem_singleton] at hb
    subst hb
    exact hm ha

theorem mergeSource_get_none (merged d : ExDict) (k : String)
    (hk : alistGet d k = none) :
    alistGet (mergeSource merged d) k = alistGet merged k := by
  induction d generalizing merged with
  | nil => rfl
  | cons p t ih =>
    rw [alistGet_cons] at hk
    by_cases hp : p.1 = k
    · rw [if_pos hp] at hk
      cases hk
    · rw [if_neg hp] at hk
      show alistGet (mergeSource
        (alistSet merged p.1 ((alistGet merged p.1).getD [] ++ p.2)) t) k
        = alistGet merged k
      rw [ih _ hk]
      exact alistGet_set_ne merged p.1 k _ (fun he => hp he.symm)

theorem mergeSource_get_some (merged d : ExDict)
    (hd : (alistKeys d).Nodup) (k : String) (v : List String)
    (hk : alistGet d k = some v) :
    alistGet (mergeSource merged d) k
      = some ((alistGet merged k).getD [] ++ v) := by
  induction d generalizing merged with
  | nil => cases hk
  | cons p t ih =>
    have hnd := List.nodup_cons.mp hd
    rw [alistGet_cons] at hk
    by_cases hp : p.1 = k
    · rw [if_pos hp] at hk
      injection hk with hk
      have htn : alistGet t k = none := by
        rw [alistGet_eq_none_iff]
        rw [← hp]
        exact hnd.1
      show alistGet (mergeSource
        (alistSet merged p.1 ((alistGet merged p.1).getD [] ++ p.2)) t) k
        = some ((alistGet merged k).getD [] ++ v)
      rw [mergeSource_get_none _ t k htn, ← hp, alistGet_set_self, hk]
    · rw [if_neg hp] at hk
      show alistGet (mergeSource
        (alistSet merged p.1 ((alistGet merged p.1).getD [] ++ p.2)) t) k
        = some ((alistGet merged k).getD [] ++ v)
      rw [ih _ hnd.2 hk,
        alistGet_set_ne merged p.1 k _ (fun he => hp he.symm)]

theorem mergeSource_keys_of_subset (merged d : ExDict)
    (h : ∀ p ∈ d, p.1 ∈ alistKeys merged) :
    alistKeys (mergeSource merged d) = alistKeys merged := by
  induction d generalizing merged with
  | nil => rfl
  | cons p t ih =>
    have hset : alistKeys
        (alistSet merged p.1 ((alistGet merged p.1).getD [] ++ p.2))
        = alistKeys merged := by
      rw [alistKeys_set, if_pos (h p (List.mem_cons_self _ _))]
    show alistKeys (mergeSource
      (alistSet merged p.1 ((alistGet merged p.1).getD [] ++ p.2)) t)
      = alistKeys merged
    rw [ih _ (fun q hq => by
      rw [hset]; exact h q (List.mem_cons_of_mem _ hq)), hset]

theorem mergeSource_nodup (merged d : ExDict)
    (h : (alistKeys merged).Nodup) :
    (alistKeys (mergeSource merged d)).Nodup := by
  induction d generalizing merged with
  | nil => exact h
  | cons p t ih =>
    show (alistKeys (mergeSource
      (alistSet merged p.1 ((alistGet merged p.1).getD [] ++ p.2)) t)).Nodup
    exact ih _ (alistSet_nodup merged p.1 _ h)

theorem alist_ext {α : Type} (d₁ d₂ : List (String × α))
    (hn : (alistKeys d₁).Nodup) (hk : alistKeys d₁ = alistKeys d₂)
    (hget : ∀ k, alistGet d₁ k = alistGet d₂ k) : d₁ = d₂ := by
  induction d₁ generalizing d₂ with
  | nil =>
    cases d₂ with
    | nil => rfl
    | cons q t₂ => exact absurd hk (by simp [alistKeys])
  | cons p t ih =>
    cases d₂ with
    | nil => exact absurd hk (by simp [alistKeys])
    | cons q t₂ =>
      have hk' : p.1 = q.1 ∧ alistKeys t = alistKeys t₂ := by
        simpa [alistKeys] using hk
      obtain ⟨h1, h2⟩ := hk'
      have hv : p.2 = q.2 := by
        have hh := hget p.1
        rw [alistGet_cons, alistGet_cons, if_pos rfl, if_pos h1.symm] at hh
        injection hh
      have hnd := List.nodup_cons.mp hn
      have htail : t = t₂ := by
        refine ih t₂ hnd.2 h2 ?_
        intro k
        by_cases hkp : k = p.1
        · rw [hkp, (alistGet_eq_none_iff t p.1).mpr hnd.1,
            (alistGet_eq_none_iff t₂ p.1).mpr (h2 ▸ hnd.1)]
        · have hh := hget k
          rw [alistGet_cons, alistGet_cons,
            if_neg (fun he => hkp he.symm),
            if_neg (fun he => hkp (h1.trans he).symm)] at hh
          exact hh
      rw [show p = q from Prod.ext_iff.mpr ⟨h1, hv⟩, htail]

theorem cleanDict_keys (d : ExDict) :
    alistKeys (cleanDict d) = alistKeys d := by
  induction d with
  | nil => rfl
  | cons p t ih =>
    show p.1 :: alistKeys (cleanDict t) = p.1 :: alistKeys t
    rw [ih]

theorem cleanDict_get (d : ExDict) (k : String) :
    alistGet (cleanDict d) k
      = (alistGet d k).map (fun v => (uniqueFirst v).take 1) := by
  induction d with
  | nil => rfl
  | cons p t ih =>
    show alistGet ((p.1, (uniqueFirst p.2).take 1) :: cleanDict t) k = _
    rw [alistGet_cons, alistGet_cons]
    by_cases hp : p.1 = k
    · rw [if_pos hp, if_pos hp]
      rfl
    · rw [if_neg hp, if_neg hp]
      exact ih

/-- C5: the Merge/Dedup Engine is idempotent — folding the same source map in
twice yields the same cleaned result as folding it once, and merging an
already-cleaned map with itself yields that map itself (after per-key
deduplication by exact text equality and truncation to 1 example). -/
theorem C5_merge_idempotent :
    (∀ (ex m : ExDict), (alistKeys ex).Nodup → (alistKeys m).Nodup →
      merge_and_clean ex [m, m] = merge_and_clean ex [m]) ∧
    (∀ (m : ExDict), (alistKeys m).Nodup →
      (∀ p ∈ m, (uniqueFirst p.2).take 1 = p.2) →
      merge_and_clean m [m] = m) := by
  constructor
  · intro ex m hex hm
    show cleanDict (mergeSource (mergeSource ex m) m)
      = cleanDict (mergeSource ex m)
    have hAn : (alistKeys (mergeSource ex m)).Nodup := mergeSource_nodup ex m hex
    have hsub : ∀ p ∈ m, p.1 ∈ alistKeys (mergeSource ex m) := by
      intro p hp
      obtain ⟨v, hv⟩ := alistGet_isSome_of_mem_keys m p.1
        (List.mem_map_of_mem _ hp)
      have hgA := mergeSource_get_some ex m hm p.1 v hv
      by_contra hnk
      rw [(alistGet_eq_none_iff (mergeSource ex m) p.1).mpr hnk] at hgA
      cases hgA
    refine alist_ext _ _ ?_ ?_ ?_
    · rw [cleanDict_keys]
      exact mergeSource_nodup _ m hAn
    · rw [cleanDict_keys, cleanDict_keys,
        mergeSource_keys_of_subset (mergeSource ex m) m hsub]
    · intro k
      rw [cleanDict_get, cleanDict_get]
      cases hk : alistGet m k with
      | none => rw [mergeSource_get_none (mergeSource ex m) m k hk]
      | some v =>
        rw [mergeSource_get_some (mergeSource ex m) m hm k v hk,
          mergeSource_get_some ex m hm k v hk]
        simp only [Option.getD_some, Option.map_some']
        rw [uniqueFirst_append_of_subset ((alistGet ex k).getD [] ++ v) v
          (fun z hz => List.mem_append_right _ hz)]
  · intro m hm hclean
    show cleanDict (mergeSource m m) = m
    refine alist_ext _ _ ?_ ?_ ?_
    · rw [cleanDict_keys]
      exact mergeSource_nodup m m hm
    · rw [cleanDict_keys,
        mergeSource_keys_of_subset m m (fun p hp => List.mem_map_of_mem _ hp)]
    · intro k
      rw [cleanDict_get]
      cases hk : alistGet m k with
      | none =>
        rw [mergeSource_get_none m m k hk, hk]
        rfl
      | some v =>
        rw [mergeSource_get_some m m hm k v hk, hk]
        simp only [Option.getD_some, Option.map_some']
        rw [uniqueFirst_append_of_subset v v (fun z hz => hz),
          hclean (k, v) (alistGet_mem hk)]

theorem C5_merge_idempotent_witness :
    (merge_and_clean [("a", ["x"])]
        [[("a", ["y"]), ("b", ["z"])], [("a", ["y"]), ("b", ["z"])]]
      = merge_and_clean [("a", ["x"])] [[("a", ["y"]), ("b", ["z"])]]) ∧
    (merge_and_clean [("a", ["x"]), ("b", [])] [[("a", ["x"]), ("b", [])]]
      = [("a", ["x"]), ("b", [])]) :=
  ⟨C5_merge_idempotent.1 [("a", ["x"])] [("a", ["y"]), ("b", ["z"])]
      (by decide) (by decide),
   C5_merge_idempotent.2 [("a", ["x"]), ("b", [])] (by decide) (by decide)⟩

theorem C7_candidate_key_filter_witness :
    ':' ∉ stripChars "Mačka".data ∧
    (∀ c ∈ stripChars "Mačka".data, pyWhitespace c = false) ∧
    (∀ c ∈ stripChars "Mačka".data, c.isDigit = false) ∧
    (∀ c ∈ stripChars "Mačka".data, isAlphabetChar c = true) ∧
    2 ≤ (stripChars "Mačka".data).length ∧
    (stripChars "Mačka".data).length ≤ 30 ∧
    "mačka".data = pyLower (stripChars "Mačka".data) :=
  C7_candidate_key_filter.1 "Mačka".data "mačka".data (by decide)

end Korektor
